import Mathlib

/-!
Shallow embedding of `src/perceptron.py` (class `Perceptron` of the
machine-learning-nes repository).

Numeric values (Python `float`/`int`) are modelled as exact rationals `ℚ`;
all claims under study are structural (control flow, termination, shapes,
error behaviour) and do not depend on rounding.  Python runtime failures
are modelled with `Except PErr`:
* `PErr.indexError` models an `IndexError` from `list[i]` with `i` out of range;
* `PErr.attributeError` models an `AttributeError` from reading
  `self.weights` before `fit` ever assigned it (the class only carries an
  annotation `weights: List[...]`, no value).
The two remaining constructors are the error classes named by the spec's
error-handling design; the source never raises them (it contains no `raise`
statement at all), they exist here only so that claims about them can be
stated.  `random.random()` draws are modelled by an explicit stream
`rand : ℕ → ℚ` consumed positionally by `fit`.
-/

/-- Error outcomes.  `indexError` and `attributeError` are the Python
runtime errors the source can actually produce.  `invalidInput` and
`notTrained` are modelled from the spec: the spec's §7 error taxonomy names
`InvalidInput` and `NotTrained`, but no code in `src/perceptron.py` defines
or raises them. -/
inductive PErr where
  | indexError
  | attributeError
  | invalidInput
  | notTrained
deriving DecidableEq

instance {ε α : Type} [DecidableEq ε] [DecidableEq α] : DecidableEq (Except ε α) :=
  fun a b =>
    match a, b with
    | Except.ok x, Except.ok y =>
      if h : x = y then Decidable.isTrue (by rw [h]) else
        Decidable.isFalse (by intro hc; exact h (Except.ok.inj hc))
    | Except.error e, Except.error f =>
      if h : e = f then Decidable.isTrue (by rw [h]) else
        Decidable.isFalse (by intro hc; exact h (Except.error.inj hc))
    | Except.ok _, Except.error _ => Decidable.isFalse (by intro hc; cases hc)
    | Except.error _, Except.ok _ => Decidable.isFalse (by intro hc; cases hc)

/-- State of a `Perceptron` instance: the constructor arguments
(`learning_rate` stored as `lr`, `n_iters`), the private epoch counter
`_iterations`, and `weights`, which is `none` until `fit` first assigns it. -/
structure Perceptron where
  lr : ℚ
  n_iters : ℕ
  iterations : ℕ
  weights : Option (List ℚ)
deriving DecidableEq

/-- `Perceptron.__init__`: stores `lr` and `n_iters`, sets `_iterations = 0`;
`self.weights` is not assigned (class-level annotation only). -/
def Perceptron.init (learning_rate : ℚ) (n_iters : ℕ) : Perceptron :=
  ⟨learning_rate, n_iters, 0, none⟩

/-- `_activation(z)`: `1 if z > 0 else -1`. -/
def activation (z : ℚ) : ℚ :=
  if z > 0 then 1 else -1

/-- The weighted sum of `predict`:
`z = sum(X[i] * self.weights[i] for i in range(len(X)))`.
Iterates over the indices of `X`; accessing `weights[i]` for
`i ≥ len(weights)` is an `IndexError`. -/
def dotZ : List ℚ → List ℚ → Except PErr ℚ
  | [], _ => Except.ok 0
  | _ :: _, [] => Except.error PErr.indexError
  | x :: xs, wj :: ws => (dotZ xs ws).map (fun s => x * wj + s)

/-- `predict(X)` as a function of the (possibly absent) `weights` attribute.
The generator body `X[i] * self.weights[i]` never runs when `X` is empty, so
`self.weights` is not read in that case and `z = 0`; otherwise reading an
absent `weights` is an `AttributeError`, and with weights present the result
is `_activation(z)`. -/
def predictAux (wo : Option (List ℚ)) (X : List ℚ) : Except PErr ℚ :=
  match X, wo with
  | [], _ => Except.ok (activation 0)
  | _ :: _, none => Except.error PErr.attributeError
  | x :: xs, some w => (dotZ (x :: xs) w).map activation

/-- Method `predict`. -/
def Perceptron.predict (p : Perceptron) (X : List ℚ) : Except PErr ℚ :=
  predictAux p.weights X

/-- Inner loop of `_update_weights` for one misclassified sample:
`for j in range(len(X[i])): self.weights[j] += self.lr * error * X[i][j]`.
Weight `j` is read and written for every `j < len(X[i])`;
`j ≥ len(weights)` is an `IndexError`; weights beyond `len(X[i])` are
untouched. -/
def updateW (lr err : ℚ) : List ℚ → List ℚ → Except PErr (List ℚ)
  | [], w => Except.ok w
  | _ :: _, [] => Except.error PErr.indexError
  | x :: xs, wj :: ws => (updateW lr err xs ws).map (fun t => (wj + lr * err * x) :: t)

/-- Body of `_update_weights`: walks the samples in order, threading the
weight vector and the `all_classified_correctly` flag (`acc`).  For sample
`i`: first `y_hat = self.predict(X[i])`, then `error = y[i] - y_hat`
(an `IndexError` if `y` is too short), and if `error != 0` the flag drops to
`False` and the weights are updated. -/
def updateStep (lr : ℚ) : List (List ℚ) → List ℚ → List ℚ → Bool → Except PErr (List ℚ × Bool)
  | [], _, w, acc => Except.ok (w, acc)
  | Xi :: Xs, ys, w, acc =>
    match predictAux (some w) Xi with
    | Except.error e => Except.error e
    | Except.ok yh =>
      match ys with
      | [] => Except.error PErr.indexError
      | yi :: ytl =>
        if yi - yh ≠ 0 then
          match updateW lr (yi - yh) Xi w with
          | Except.error e => Except.error e
          | Except.ok w2 => updateStep lr Xs ytl w2 false
        else updateStep lr Xs ytl w acc

/-- `_update_weights(X, y)`: starts with `all_classified_correctly = True`
and returns `not all_classified_correctly` together with the new weights. -/
def updateWeights (lr : ℚ) (X : List (List ℚ)) (y : List ℚ) (w : List ℚ) :
    Except PErr (List ℚ × Bool) :=
  (updateStep lr X y w true).map (fun r => (r.1, !r.2))

/-- The `for _ in range(self.n_iters)` loop of `fit`: each epoch increments
`_iterations` and runs `_update_weights`; a pass with no misclassification
breaks out of the loop. -/
def fitLoop (lr : ℚ) (X : List (List ℚ)) (y : List ℚ) :
    ℕ → List ℚ → ℕ → Except PErr (List ℚ × ℕ)
  | 0, w, iters => Except.ok (w, iters)
  | k + 1, w, iters =>
    match updateWeights lr X y w with
    | Except.error e => Except.error e
    | Except.ok (w2, updated) =>
      if updated then fitLoop lr X y k w2 (iters + 1)
      else Except.ok (w2, iters + 1)

/-- Method `fit(X, y)`:
`self.weights = [random.random() for _ in range(len(X[0]) + 1)]`
(an `IndexError` on empty `X`), `self._iterations = 0`,
`X = [[1] + x for x in X]` (fresh augmented rows), then the epoch loop.
The random draws come from the stream `rand`. -/
def Perceptron.fit (rand : ℕ → ℚ) (p : Perceptron) (X : List (List ℚ)) (y : List ℚ) :
    Except PErr Perceptron :=
  match X with
  | [] => Except.error PErr.indexError
  | x0 :: _ =>
    let w0 := (List.range (x0.length + 1)).map rand
    let Xa := X.map (fun x => 1 :: x)
    match fitLoop p.lr Xa y p.n_iters w0 0 with
    | Except.error e => Except.error e
    | Except.ok (w, iters) => Except.ok (Perceptron.mk p.lr p.n_iters iters (some w))

/-- Store-passing refinement of `fit`, making the caller-owned buffers
explicit: the caller's sample rows live in a store `rows` addressed by
`addrs`, and the label list is `lbls`.  Every source statement touching them
is a read: `len(X[0])` reads `rows a0`; the augmentation `[1] + x` builds a
fresh list `1 :: rows a` (the `+` operator allocates, it does not write
back); `_update_weights` reads `X[i][j]` and `y[i]` and writes only
`self.weights`.  The final store and label list are returned so that
non-mutation is a stated theorem rather than a convention. -/
def fitStore (rand : ℕ → ℚ) (p : Perceptron) (rows : ℕ → List ℚ) (addrs : List ℕ)
    (lbls : List ℚ) : Except PErr Perceptron × (ℕ → List ℚ) × List ℚ :=
  match addrs with
  | [] => (Except.error PErr.indexError, rows, lbls)
  | a0 :: _ =>
    let w0 := (List.range ((rows a0).length + 1)).map rand
    let Xa := addrs.map (fun a => 1 :: rows a)
    match fitLoop p.lr Xa lbls p.n_iters w0 0 with
    | Except.error e => (Except.error e, rows, lbls)
    | Except.ok (w, iters) =>
      (Except.ok (Perceptron.mk p.lr p.n_iters iters (some w)), rows, lbls)

/-! ### Basic lemmas about the embedded operations -/

theorem dotZ_ok (xs : List ℚ) : ∀ w : List ℚ, xs.length ≤ w.length →
    ∃ z, dotZ xs w = Except.ok z := by
  induction xs with
  | nil => intro w _; exact ⟨0, rfl⟩
  | cons x xs ih =>
    intro w hlen
    cases w with
    | nil => simp at hlen
    | cons wj ws =>
      obtain ⟨z, hz⟩ := ih ws (by simpa using hlen)
      exact ⟨x * wj + z, by simp [dotZ, hz, Except.map]⟩

theorem dotZ_long (xs : List ℚ) : ∀ w : List ℚ, w.length < xs.length →
    dotZ xs w = Except.error PErr.indexError := by
  induction xs with
  | nil => intro w h; simp at h
  | cons x xs ih =>
    intro w hlen
    cases w with
    | nil => rfl
    | cons wj ws =>
      have h2 : ws.length < xs.length := by simpa using hlen
      simp [dotZ, ih ws h2, Except.map]

theorem predictAux_ok (w X : List ℚ) (z : ℚ) (hz : dotZ X w = Except.ok z) :
    predictAux (some w) X = Except.ok (activation z) := by
  cases X with
  | nil =>
    have h0 : z = 0 := by
      have : (Except.ok (0 : ℚ) : Except PErr ℚ) = Except.ok z := hz
      exact (Except.ok.inj this).symm
    subst h0; rfl
  | cons x xs => simp [predictAux, hz, Except.map]

theorem activation_mem (z : ℚ) : activation z = 1 ∨ activation z = -1 := by
  unfold activation
  by_cases h : z > 0 <;> simp [h]

theorem updateW_spec (lr err : ℚ) (xs : List ℚ) : ∀ w : List ℚ, xs.length ≤ w.length →
    ∃ w2, updateW lr err xs w = Except.ok w2 ∧ w2.length = w.length ∧
      ∀ j, w2.getD j 0 =
        if j < xs.length then w.getD j 0 + lr * err * xs.getD j 0 else w.getD j 0 := by
  induction xs with
  | nil =>
    intro w _
    refine ⟨w, rfl, rfl, ?_⟩
    intro j; simp
  | cons x xs ih =>
    intro w hlen
    cases w with
    | nil => simp at hlen
    | cons wj ws =>
      obtain ⟨t, ht, htl, hix⟩ := ih ws (by simpa using hlen)
      refine ⟨(wj + lr * err * x) :: t, by simp [updateW, ht, Except.map], by simp [htl], ?_⟩
      intro j
      cases j with
      | zero => simp
      | succ j =>
        have := hix j
        simpa [Nat.succ_lt_succ_iff] using this

theorem updateW_length (lr err : ℚ) (xs : List ℚ) : ∀ w w2 : List ℚ,
    updateW lr err xs w = Except.ok w2 → w2.length = w.length := by
  induction xs with
  | nil =>
    intro w w2 h
    simp only [updateW] at h
    rw [Except.ok.inj h]
  | cons x xs ih =>
    intro w w2 h
    cases w with
    | nil => simp [updateW] at h
    | cons wj ws =>
      simp only [updateW] at h
      cases ht : updateW lr err xs ws with
      | error e => rw [ht] at h; simp [Except.map] at h
      | ok t =>
        rw [ht] at h
        simp only [Except.map] at h
        have := ih ws t ht
        rw [← Except.ok.inj h]
        simp [this]

theorem updateStep_length (lr : ℚ) (Xs : List (List ℚ)) : ∀ (ys w : List ℚ) (acc : Bool)
    (w2 : List ℚ) (b : Bool), updateStep lr Xs ys w acc = Except.ok (w2, b) →
    w2.length = w.length := by
  induction Xs with
  | nil =>
    intro ys w acc w2 b h
    simp only [updateStep] at h
    have := Except.ok.inj h
    rw [show w2 = w from congrArg Prod.fst this.symm]
  | cons Xi Xs ih =>
    intro ys w acc w2 b h
    simp only [updateStep] at h
    cases hp : predictAux (some w) Xi with
    | error e => rw [hp] at h; cases h
    | ok yh =>
      rw [hp] at h
      cases ys with
      | nil => cases h
      | cons yi ytl =>
        simp only at h
        by_cases he : yi - yh ≠ 0
        · rw [if_pos he] at h
          cases hu : updateW lr (yi - yh) Xi w with
          | error e => rw [hu] at h; cases h
          | ok wu =>
            rw [hu] at h
            have h1 := ih ytl wu false w2 b h
            rw [h1, updateW_length lr (yi - yh) Xi w wu hu]
        · rw [if_neg he] at h
          exact ih ytl w acc w2 b h

theorem updateWeights_length (lr : ℚ) (X : List (List ℚ)) (y w : List ℚ) (w2 : List ℚ)
    (b : Bool) (h : updateWeights lr X y w = Except.ok (w2, b)) : w2.length = w.length := by
  unfold updateWeights at h
  cases hs : updateStep lr X y w true with
  | error e => rw [hs] at h; simp [Except.map] at h
  | ok r =>
    rw [hs] at h
    simp only [Except.map] at h
    have := Except.ok.inj h
    have hw : w2 = r.1 := (congrArg Prod.fst this).symm
    rw [hw]
    exact updateStep_length lr X y w true r.1 r.2 (by rw [hs])

theorem fitLoop_bounds (lr : ℚ) (X : List (List ℚ)) (y : List ℚ) : ∀ (k : ℕ) (w : List ℚ)
    (i : ℕ) (wf : List ℚ) (i2 : ℕ), fitLoop lr X y k w i = Except.ok (wf, i2) →
    wf.length = w.length ∧ i ≤ i2 ∧ i2 ≤ i + k ∧ (1 ≤ k → i + 1 ≤ i2) := by
  intro k
  induction k with
  | zero =>
    intro w i wf i2 h
    simp only [fitLoop] at h
    have := Except.ok.inj h
    have hw : wf = w := (congrArg Prod.fst this).symm
    have hi : i2 = i := (congrArg Prod.snd this).symm
    exact ⟨by rw [hw], by omega, by omega, by omega⟩
  | succ k ih =>
    intro w i wf i2 h
    simp only [fitLoop] at h
    cases hu : updateWeights lr X y w with
    | error e => rw [hu] at h; cases h
    | ok r =>
      obtain ⟨w2, updated⟩ := r
      rw [hu] at h
      simp only at h
      cases updated with
      | false =>
        simp only [Bool.false_eq_true, if_false] at h
        have := Except.ok.inj h
        have hw : wf = w2 := (congrArg Prod.fst this).symm
        have hi : i2 = i + 1 := (congrArg Prod.snd this).symm
        refine ⟨?_, by omega, by omega, by omega⟩
        rw [hw]
        exact updateWeights_length lr X y w w2 false hu
      | true =>
        simp only [if_true] at h
        have hrec := ih w2 (i + 1) wf i2 h
        have hl : w2.length = w.length := updateWeights_length lr X y w w2 true hu
        exact ⟨by rw [hrec.1, hl], by omega, by omega, by omega⟩

theorem updateStep_labels_short (lr : ℚ) (Xs : List (List ℚ)) : ∀ (ys w : List ℚ) (acc : Bool),
    (∀ v ∈ Xs, v.length ≤ w.length) → ys.length < Xs.length →
    updateStep lr Xs ys w acc = Except.error PErr.indexError := by
  induction Xs with
  | nil => intro ys w acc _ h; simp at h
  | cons Xi Xs ih =>
    intro ys w acc hv hlen
    have hXi : Xi.length ≤ w.length := hv Xi (List.mem_cons_self Xi Xs)
    obtain ⟨z, hz⟩ := dotZ_ok Xi w hXi
    have hpred := predictAux_ok w Xi z hz
    simp only [updateStep, hpred]
    cases ys with
    | nil => rfl
    | cons yi ytl =>
      simp only
      by_cases he : yi - activation z ≠ 0
      · rw [if_pos he]
        obtain ⟨w2, hw2, hw2len, _⟩ := updateW_spec lr (yi - activation z) Xi w hXi
        rw [hw2]
        apply ih ytl w2 false
        · intro v hvmem
          rw [hw2len]
          exact hv v (List.mem_cons_of_mem Xi hvmem)
        · simpa using hlen
      · rw [if_neg he]
        apply ih ytl w acc
        · intro v hvmem
          exact hv v (List.mem_cons_of_mem Xi hvmem)
        · simpa using hlen

theorem fitLoop_exhaust (lr : ℚ) (X : List (List ℚ)) (y : List ℚ) (n : ℕ)
    (H : ∀ w : List ℚ, w.length = n →
      ∃ w2, updateWeights lr X y w = Except.ok (w2, true) ∧ w2.length = n) :
    ∀ (k : ℕ) (w : List ℚ) (i : ℕ), w.length = n →
      ∃ wf, fitLoop lr X y k w i = Except.ok (wf, i + k) ∧ wf.length = n := by
  intro k
  induction k with
  | zero => intro w i hw; exact ⟨w, by simp [fitLoop], hw⟩
  | succ k ih =>
    intro w i hw
    obtain ⟨w2, hu, hl⟩ := H w hw
    obtain ⟨wf, hf, hfl⟩ := ih w2 (i + 1) hl
    refine ⟨wf, ?_, hfl⟩
    simp only [fitLoop, hu, if_true]
    rw [hf]
    have harith : i + 1 + k = i + (k + 1) := by omega
    rw [harith]

/-! ### Claims -/

/-- Claim C2: whenever the weighted sum `z = Σ X[i]·weights[i]` of `predict`
is defined (every index of `X` is within the weight vector, so the sum does
not fault), `predict` returns `+1` exactly when `z > 0` and `-1` otherwise;
in particular `z = 0` yields `-1`, and the returned label is never outside
`{-1, +1}`. -/
theorem predict_activation_boundary (p : Perceptron) (X w : List ℚ) (z : ℚ)
    (hw : p.weights = some w) (hz : dotZ X w = Except.ok z) :
    p.predict X = Except.ok (if 0 < z then 1 else -1) ∧
    (z = 0 → p.predict X = Except.ok (-1)) ∧
    (∀ r, p.predict X = Except.ok r → r = 1 ∨ r = -1) := by
  have hp : p.predict X = Except.ok (activation z) := by
    unfold Perceptron.predict
    rw [hw]
    exact predictAux_ok w X z hz
  refine ⟨?_, ?_, ?_⟩
  · rw [hp]; rfl
  · intro h0
    rw [hp, h0]
    norm_num [activation]
  · intro r hr
    rw [hp] at hr
    have hra : r = activation z := (Except.ok.inj hr).symm
    rw [hra]
    exact activation_mem z

theorem predict_activation_boundary_witness :
    (Perceptron.mk 1 1 0 (some [2])).predict [3] = Except.ok 1 := by
  have h := predict_activation_boundary (Perceptron.mk 1 1 0 (some [2])) [3] [2] 6 rfl
    (by norm_num [dotZ, Except.map])
  have h1 := h.1
  norm_num at h1
  exact h1

/-- Claim C9: `predict` is a pure function of the current weights and the
input: any two instances holding identical weight vectors produce identical
predictions on identical inputs, whatever their other state; in this
embedding `predict` returns only the label, so it touches neither the weight
vector nor the iteration counter. -/
theorem predict_pure (p1 p2 : Perceptron) (X : List ℚ) (h : p1.weights = p2.weights) :
    p1.predict X = p2.predict X := by
  unfold Perceptron.predict
  rw [h]

theorem predict_pure_witness :
    (Perceptron.mk 1 3 0 (some [2])).predict [1] =
      (Perceptron.mk (1 / 2) 77 5 (some [2])).predict [1] :=
  predict_pure (Perceptron.mk 1 3 0 (some [2])) (Perceptron.mk (1 / 2) 77 5 (some [2])) [1] rfl

/-- Claim C8 counterexample: on a freshly constructed instance (no `fit`
call), `predict []` silently returns `-1` — no error of any kind is raised,
in particular no `NotTrained` — and `predict [1]` fails with the runtime
attribute error for the missing `weights` attribute, which is not a
`NotTrained` error: the source defines no such class. -/
theorem predict_untrained_counterexample :
    (Perceptron.init (1 / 100) 1000).predict [] = Except.ok (-1) ∧
    (Perceptron.init (1 / 100) 1000).predict [1] = Except.error PErr.attributeError := by
  constructor
  · norm_num [Perceptron.predict, Perceptron.init, predictAux, activation]
  · rfl

/-- Claim C8 as amended: calling `predict` before any `fit` call fails with
an attribute error (the `weights` attribute was never assigned) whenever the
input is non-empty; with an empty input the weights are never read and the
call silently returns `-1`.  No `NotTrained` error exists in the code. -/
theorem predict_untrained_amended (lr : ℚ) (k : ℕ) (X : List ℚ) :
    (Perceptron.init lr k).predict X =
      if X.isEmpty then Except.ok (-1) else Except.error PErr.attributeError := by
  cases X with
  | nil => norm_num [Perceptron.predict, Perceptron.init, predictAux, activation]
  | cons x xs => rfl

/-- Claim C5 counterexample: `fit` on an empty sample list fails with the
index error coming from `len(X[0])`, not with an `InvalidInput` error (a
class the source never defines or raises). -/
theorem fit_empty_counterexample :
    Perceptron.fit (fun _ => 0) (Perceptron.init (1 / 100) 1000) [] [] =
      Except.error PErr.indexError := rfl

/-- Claim C5 as amended: `fit` on an empty sample list fails, but with the
generic index-out-of-range error raised by `X[0]` while sizing the weight
vector, not with a classified `InvalidInput` error. -/
theorem fit_empty_amended (rand : ℕ → ℚ) (p : Perceptron) (y : List ℚ) :
    Perceptron.fit rand p [] y = Except.error PErr.indexError := rfl

/-- Claim C1: in the training pass, a sample (in its augmented form
`1 :: x`, the leading `1` feeding the bias weight at index 0) is processed
by predicting `activation z` from the weighted sum `z` of the current
weights, forming `error = yi - activation z`, and then: if `error = 0` the
pass moves on with every weight unchanged, and if `error ≠ 0` every weight
`j` becomes `weight[j] + lr · error · augmented_sample[j]` before the pass
moves on (with the epoch's all-classified flag dropped to `false`). -/
theorem fit_update_rule (lr : ℚ) (x : List ℚ) (Xs : List (List ℚ)) (yi : ℚ) (ys : List ℚ)
    (w : List ℚ) (acc : Bool) (z : ℚ)
    (hlen : x.length + 1 = w.length) (hz : dotZ (1 :: x) w = Except.ok z) :
    (yi - activation z = 0 →
      updateStep lr ((1 :: x) :: Xs) (yi :: ys) w acc = updateStep lr Xs ys w acc) ∧
    (yi - activation z ≠ 0 → ∃ w2,
      updateW lr (yi - activation z) (1 :: x) w = Except.ok w2 ∧
      w2.length = w.length ∧
      (∀ j, j < w.length →
        w2.getD j 0 = w.getD j 0 + lr * (yi - activation z) * ((1 :: x).getD j 0)) ∧
      updateStep lr ((1 :: x) :: Xs) (yi :: ys) w acc = updateStep lr Xs ys w2 false) := by
  have hpred := predictAux_ok w (1 :: x) z hz
  have hxlen : (1 :: x : List ℚ).length ≤ w.length := by
    simp [← hlen]
  constructor
  · intro h0
    simp only [updateStep, hpred]
    rw [if_neg (not_not_intro h0)]
  · intro hne
    obtain ⟨w2, hw2, hlen2, hix⟩ := updateW_spec lr (yi - activation z) (1 :: x) w hxlen
    refine ⟨w2, hw2, hlen2, ?_, ?_⟩
    · intro j hj
      have hclt : j < (1 :: x : List ℚ).length := by
        simp only [List.length_cons, hlen]
        exact hj
      have := hix j
      rw [if_pos hclt] at this
      exact this
    · simp only [updateStep, hpred]
      rw [if_pos hne, hw2]

theorem fit_update_rule_witness :
    updateStep 1 [[1, 2]] [0] [1, 1] true = Except.ok ([0, -1], false) := by
  have h := (fit_update_rule 1 [2] [] 0 [] [1, 1] true 3 (by norm_num)
    (by norm_num [dotZ, Except.map])).2 (by norm_num [activation])
  obtain ⟨w2, h1, _, _, h4⟩ := h
  have hw2 : w2 = [0, -1] := by
    have h9 : (Except.ok w2 : Except PErr (List ℚ)) = Except.ok [0, -1] := by
      rw [← h1]
      norm_num [updateW, Except.map, activation]
    exact Except.ok.inj h9
  rw [h4, hw2]
  rfl

/-- Claim C4: whenever `fit` on a non-empty sample list (first sample of
length `n`) with a positive epoch cap returns normally, the resulting weight
vector has exactly `n + 1` entries and the iteration counter lies in
`[1, n_iters]`; the `≤ n_iters` bound in fact needs no positivity
assumption, so the counter never exceeds the cap for any input. -/
theorem fit_invariants (rand : ℕ → ℚ) (p : Perceptron) (x0 : List ℚ) (Xr : List (List ℚ))
    (y : List ℚ) (p2 : Perceptron) (hpos : 1 ≤ p.n_iters)
    (hfit : Perceptron.fit rand p (x0 :: Xr) y = Except.ok p2) :
    (∃ w, p2.weights = some w ∧ w.length = x0.length + 1) ∧
    1 ≤ p2.iterations ∧ p2.iterations ≤ p.n_iters := by
  simp only [Perceptron.fit] at hfit
  cases hloop : fitLoop p.lr ((x0 :: Xr).map (fun x => 1 :: x)) y p.n_iters
      ((List.range (x0.length + 1)).map rand) 0 with
  | error e => rw [hloop] at hfit; cases hfit
  | ok r =>
    obtain ⟨wf, i2⟩ := r
    rw [hloop] at hfit
    simp only at hfit
    have hp2 : Perceptron.mk p.lr p.n_iters i2 (some wf) = p2 := Except.ok.inj hfit
    have hb := fitLoop_bounds p.lr ((x0 :: Xr).map (fun x => 1 :: x)) y p.n_iters
      ((List.range (x0.length + 1)).map rand) 0 wf i2 hloop
    refine ⟨⟨wf, ?_, ?_⟩, ?_, ?_⟩
    · rw [← hp2]
    · rw [hb.1]; simp
    · rw [← hp2]
      exact hb.2.2.2 hpos
    · rw [← hp2]
      show i2 ≤ p.n_iters
      have := hb.2.2.1
      omega

theorem fit_invariants_witness :
    1 ≤ (Perceptron.mk 1 3 3 (some [1, 2])).iterations ∧
    (Perceptron.mk 1 3 3 (some [1, 2])).iterations ≤ (Perceptron.init 1 3).n_iters := by
  have h := fit_invariants (fun _ => 0) (Perceptron.init 1 3) [2] [] [0]
    (Perceptron.mk 1 3 3 (some [1, 2])) (by norm_num [Perceptron.init])
    (by norm_num [Perceptron.fit, Perceptron.init, fitLoop, updateWeights, updateStep,
      predictAux, dotZ, updateW, activation, List.range_succ, Except.map])
  exact ⟨h.2.1, h.2.2⟩

/-- Claim C3: (a) an epoch whose full pass reports no misclassification
makes the training loop return at once — one more epoch is counted and no
further epoch runs; (b) if from every (correctly sized) weight state a pass
over the samples reports a misclassification — so every epoch of the run
misclassifies — then `fit` runs exactly `n_iters` epochs and returns
normally, raising no error. -/
theorem fit_termination :
    (∀ (lr : ℚ) (X : List (List ℚ)) (y : List ℚ) (k : ℕ) (w w2 : List ℚ) (i : ℕ),
      updateWeights lr X y w = Except.ok (w2, false) →
      fitLoop lr X y (k + 1) w i = Except.ok (w2, i + 1)) ∧
    (∀ (rand : ℕ → ℚ) (p : Perceptron) (x0 : List ℚ) (Xr : List (List ℚ)) (y : List ℚ),
      (∀ w : List ℚ, w.length = x0.length + 1 →
        ∃ w2, updateWeights p.lr ((x0 :: Xr).map (fun x => 1 :: x)) y w =
            Except.ok (w2, true) ∧ w2.length = x0.length + 1) →
      ∃ p2, Perceptron.fit rand p (x0 :: Xr) y = Except.ok p2 ∧
        p2.iterations = p.n_iters) := by
  constructor
  · intro lr X y k w w2 i hu
    simp only [fitLoop, hu, Bool.false_eq_true, if_false]
  · intro rand p x0 Xr y H
    have hw0len : ((List.range (x0.length + 1)).map rand).length = x0.length + 1 := by simp
    obtain ⟨wf, hloop, _⟩ := fitLoop_exhaust p.lr ((x0 :: Xr).map (fun x => 1 :: x)) y
      (x0.length + 1) H p.n_iters ((List.range (x0.length + 1)).map rand) 0 hw0len
    refine ⟨Perceptron.mk p.lr p.n_iters p.n_iters (some wf), ?_, rfl⟩
    simp only [Perceptron.fit]
    rw [show (0 + p.n_iters) = p.n_iters from by omega] at hloop
    rw [hloop]

/-- An epoch over the single sample `[1, 2]` with label `0` always
misclassifies: the prediction is `±1`, never `0`, so the error is non-zero
and the pass reports an update, whatever the two weights are. -/
theorem updateWeights_label_zero (a b : ℚ) :
    ∃ w2, updateWeights 1 [[1, 2]] [0] [a, b] = Except.ok (w2, true) ∧ w2.length = 2 := by
  have hz : dotZ [1, 2] [a, b] = Except.ok (1 * a + (2 * b + 0)) := rfl
  have hpred := predictAux_ok [a, b] [1, 2] (1 * a + (2 * b + 0)) hz
  have hne : (0 : ℚ) - activation (1 * a + (2 * b + 0)) ≠ 0 := by
    rcases activation_mem (1 * a + (2 * b + 0)) with h | h <;> rw [h] <;> norm_num
  obtain ⟨w2, hw2, hlen2, _⟩ :=
    updateW_spec 1 ((0 : ℚ) - activation (1 * a + (2 * b + 0))) [1, 2] [a, b] (by norm_num)
  refine ⟨w2, ?_, by rw [hlen2]; rfl⟩
  simp only [updateWeights, updateStep, hpred, if_pos hne, hw2]
  rfl

theorem fit_termination_witness :
    Perceptron.fit (fun _ => 0) (Perceptron.init 1 4) [[2]] [0] =
      Except.ok (Perceptron.mk 1 4 4 (some [0, 0])) := by
  obtain ⟨p2, hfit, _⟩ := fit_termination.2 (fun _ => 0) (Perceptron.init 1 4) [2] [] [0]
    (by intro w hw
        obtain ⟨a, b, rfl⟩ := List.length_eq_two.mp hw
        exact updateWeights_label_zero a b)
  calc Perceptron.fit (fun _ => 0) (Perceptron.init 1 4) [[2]] [0]
      = Except.ok p2 := hfit
    _ = Except.ok (Perceptron.mk 1 4 4 (some [0, 0])) := by
        rw [← hfit]
        norm_num [Perceptron.fit, Perceptron.init, fitLoop, updateWeights, updateStep,
          predictAux, dotZ, updateW, activation, List.range_succ, Except.map]

/-- Claim C6 counterexample: `predict` with an input strictly shorter than
the current weight vector is not rejected: with weights `[1, 1]` the input
`[5]` silently under-sums over its own single index (`z = 5·1`) and the
call returns `+1`; no `InvalidInput` — indeed no error at all — is raised. -/
theorem predict_short_counterexample :
    (Perceptron.mk (1 / 100) 10 0 (some [1, 1])).predict [5] = Except.ok 1 := by
  norm_num [Perceptron.predict, predictAux, dotZ, Except.map, activation]

/-- Claim C6 as amended: no `InvalidInput` error exists in the code; length
mismatches surface only as out-of-range accesses.  (a) `fit` (with at least
one epoch) on uniformly sized samples with fewer labels than samples fails
with the index error from `y[i]`; (b) `predict` on an input no longer than
the weight vector silently computes `activation` of the sum over only the
input's own indices (under-summing, not failing, when it is shorter);
(c) `predict` on an input longer than the weight vector fails with the
index error from `weights[i]`. -/
theorem length_mismatch_amended :
    (∀ (rand : ℕ → ℚ) (p : Perceptron) (x0 : List ℚ) (Xr : List (List ℚ)) (y : List ℚ),
      1 ≤ p.n_iters → (∀ v ∈ x0 :: Xr, v.length = x0.length) →
      y.length < (x0 :: Xr).length →
      Perceptron.fit rand p (x0 :: Xr) y = Except.error PErr.indexError) ∧
    (∀ (p : Perceptron) (w X : List ℚ), p.weights = some w → X.length ≤ w.length →
      ∃ z, dotZ X w = Except.ok z ∧ p.predict X = Except.ok (activation z)) ∧
    (∀ (p : Perceptron) (w X : List ℚ), p.weights = some w → w.length < X.length →
      p.predict X = Except.error PErr.indexError) := by
  refine ⟨?_, ?_, ?_⟩
  · intro rand p x0 Xr y hpos huni hshort
    have hstep : updateStep p.lr ((x0 :: Xr).map (fun x => 1 :: x)) y
        ((List.range (x0.length + 1)).map rand) true = Except.error PErr.indexError := by
      apply updateStep_labels_short
      · intro v hv
        obtain ⟨u, hu, rfl⟩ := List.mem_map.mp hv
        have := huni u hu
        simp [this]
      · simpa using hshort
    have hupd : updateWeights p.lr ((x0 :: Xr).map (fun x => 1 :: x)) y
        ((List.range (x0.length + 1)).map rand) = Except.error PErr.indexError := by
      unfold updateWeights
      rw [hstep]
      rfl
    obtain ⟨k, hk⟩ : ∃ k, p.n_iters = k + 1 := ⟨p.n_iters - 1, by omega⟩
    simp only [Perceptron.fit, hk, fitLoop, hupd]
  · intro p w X hw hlen
    obtain ⟨z, hz⟩ := dotZ_ok X w hlen
    refine ⟨z, hz, ?_⟩
    unfold Perceptron.predict
    rw [hw]
    exact predictAux_ok w X z hz
  · intro p w X hw hlen
    cases X with
    | nil => simp at hlen
    | cons x xs =>
      unfold Perceptron.predict
      rw [hw]
      show (dotZ (x :: xs) w).map activation = Except.error PErr.indexError
      rw [dotZ_long (x :: xs) w hlen]
      rfl

theorem length_mismatch_amended_witness :
    Perceptron.fit (fun _ => 0) (Perceptron.init 1 5) [[3], [4]] [1] =
        Except.error PErr.indexError ∧
    (Perceptron.mk 1 5 0 (some [2, 2])).predict [1] = Except.ok 1 ∧
    (Perceptron.mk 1 5 0 (some [2])).predict [1, 1] = Except.error PErr.indexError := by
  refine ⟨?_, ?_, ?_⟩
  · exact length_mismatch_amended.1 (fun _ => 0) (Perceptron.init 1 5) [3] [[4]] [1]
      (by norm_num [Perceptron.init]) (by simp) (by simp)
  · obtain ⟨z, hz, hp⟩ := length_mismatch_amended.2.1 (Perceptron.mk 1 5 0 (some [2, 2]))
      [2, 2] [1] rfl (by simp)
    have hz2 : z = 2 := by
      have h9 : (Except.ok z : Except PErr ℚ) = Except.ok 2 := by
        rw [← hz]
        norm_num [dotZ, Except.map]
      exact Except.ok.inj h9
    rw [hz2] at hp
    rw [hp]
    norm_num [activation]
  · exact length_mismatch_amended.2.2 (Perceptron.mk 1 5 0 (some [2])) [2] [1, 1] rfl
      (by simp)

/-- Claim C7: `iterations` is `0` on a freshly constructed instance on which
`fit` was never called; and `fit` reads none of the instance's mutable state
(`_iterations`, `weights`) — its outcome is the same from any two instances
sharing the configuration `lr`, `n_iters` — so the counter left by a second
`fit` call reflects only that second call, never a cumulative total. -/
theorem iterations_accessor :
    (∀ (lr : ℚ) (k : ℕ), (Perceptron.init lr k).iterations = 0) ∧
    (∀ (rand : ℕ → ℚ) (p1 p2 : Perceptron) (X : List (List ℚ)) (y : List ℚ),
      p1.lr = p2.lr → p1.n_iters = p2.n_iters →
      Perceptron.fit rand p1 X y = Perceptron.fit rand p2 X y) := by
  constructor
  · intro lr k
    rfl
  · intro rand p1 p2 X y hlr hn
    cases X with
    | nil => rfl
    | cons x0 Xr => simp only [Perceptron.fit, hlr, hn]

theorem iterations_accessor_witness :
    Perceptron.fit (fun _ => 0) (Perceptron.mk 1 3 99 (some [7])) [[2]] [0] =
      Perceptron.fit (fun _ => 0) (Perceptron.init 1 3) [[2]] [0] :=
  iterations_accessor.2 (fun _ => 0) (Perceptron.mk 1 3 99 (some [7]))
    (Perceptron.init 1 3) [[2]] [0] rfl rfl

/-- Claim C10: `fit` never mutates the caller-supplied arguments.  In the
store-passing embedding `fitStore`, where the caller's sample rows sit in a
store `rows` and the labels in `lbls`, a `fit` call hands back the store and
the label list exactly as supplied — the bias augmentation `[1] + x` builds
fresh lists rather than writing into the caller's — and its classifier
result agrees with the pure `Perceptron.fit` on the dereferenced samples. -/
theorem fit_frame (rand : ℕ → ℚ) (p : Perceptron) (rows : ℕ → List ℚ) (addrs : List ℕ)
    (lbls : List ℚ) :
    fitStore rand p rows addrs lbls =
      (Perceptron.fit rand p (addrs.map rows) lbls, rows, lbls) := by
  cases addrs with
  | nil => rfl
  | cons a0 tl =>
    simp only [fitStore, Perceptron.fit, List.map_cons, List.map_map]
    have hsc : List.map ((fun x => (1 : ℚ) :: x) ∘ rows) tl =
        List.map (fun a => 1 :: rows a) tl := rfl
    rw [hsc]
    cases h : fitLoop p.lr ((1 :: rows a0) :: List.map (fun a => 1 :: rows a) tl) lbls
        p.n_iters (List.map rand (List.range ((rows a0).length + 1))) 0 with
    | error e => rfl
    | ok r =>
      obtain ⟨w, iters⟩ := r
      rfl
